import Mathlib

/-!
# Verification of the PDF ingestion pipeline (`api/_lib/pdf-parser.ts`)

A shallow embedding of the document ingestion pipeline: input validation
(`parsePDFFromBuffer`), whitespace normalization, and paragraph-aware greedy
chunking (`splitIntoChunks`).  Strings are modelled as `List Char`, raw bytes
as `List Nat`, and the external text-extraction library (`unpdf`) as a
function parameter returning `Except`.
-/

set_option maxRecDepth 20000

namespace SBA

/-- JavaScript `String.prototype.trim` whitespace class (WhiteSpace ∪
LineTerminator): space, the control range TAB..CR, NBSP, and the Unicode
space separators plus LS/PS and the BOM. -/
def isJsWs (c : Char) : Bool :=
  (c = ' ') || ('\t' ≤ c && c ≤ '\r') || (c = '\u00A0') || (c = '\u1680') ||
  ('\u2000' ≤ c && c ≤ '\u200A') || (c = '\u2028') || (c = '\u2029') ||
  (c = '\u202F') || (c = '\u205F') || (c = '\u3000') || (c = '\uFEFF')

/-- Drop trailing JS-whitespace characters (the right half of `.trim()`). -/
def dropTrailingWs : List Char → List Char
  | [] => []
  | c :: rest =>
      if (dropTrailingWs rest).isEmpty && isJsWs c then []
      else c :: dropTrailingWs rest

/-- JavaScript `s.trim()`: drop leading and trailing whitespace. -/
def trimChars (l : List Char) : List Char :=
  dropTrailingWs (l.dropWhile isJsWs)

/-- `text.replace(/\r\n/g, '\n')`: one left-to-right pass replacing each CRLF
pair with LF; the scan resumes after the replacement, so it never rescans the
emitted LF. -/
def crlfToLf : List Char → List Char
  | '\r' :: '\n' :: rest => '\n' :: crlfToLf rest
  | c :: rest => c :: crlfToLf rest
  | [] => []

/-- Worker for `text.replace(/\n{3,}/g, '\n\n')`: `pending` counts the LFs of
the maximal run currently being scanned; a maximal run of length `k` is
emitted as `min k 2` LFs. -/
def collapseAux : Nat → List Char → List Char
  | pending, [] => List.replicate (min pending 2) '\n'
  | pending, c :: rest =>
      if c = '\n' then collapseAux (pending + 1) rest
      else List.replicate (min pending 2) '\n' ++ c :: collapseAux 0 rest

/-- `text.replace(/\n{3,}/g, '\n\n')`: collapse every run of 3 or more LFs to
exactly two. -/
def collapseNewlines (l : List Char) : List Char := collapseAux 0 l

/-- Lines 71–74 of `pdf-parser.ts`:
`text.replace(/\r\n/g,'\n').replace(/\n{3,}/g,'\n\n').trim()`. -/
def normalizeText (l : List Char) : List Char :=
  trimChars (collapseNewlines (crlfToLf l))

/-- Worker for `cleanText.split(/\n\n+/)`: `pending` counts LFs seen since the
last non-LF character and `cur` is the reversed current field.  A maximal LF
run of length ≥ 2 separates fields; a single LF stays inside the field. -/
def splitAux (pending : Nat) (cur : List Char) : List Char → List (List Char)
  | [] =>
      if pending ≥ 2 then [cur.reverse, []]
      else [cur.reverse ++ List.replicate pending '\n']
  | c :: rest =>
      if c = '\n' then splitAux (pending + 1) cur rest
      else if pending ≥ 2 then cur.reverse :: splitAux 0 [c] rest
      else splitAux 0 (c :: (List.replicate pending '\n' ++ cur)) rest

/-- `cleanText.split(/\n\n+/)` from line 85 of `pdf-parser.ts`. -/
def splitParas (l : List Char) : List (List Char) := splitAux 0 [] l

/-- One element of the `chunks` array: `{ chunkIndex, text, pageHint? }`. -/
structure Chunk where
  chunkIndex : Nat
  text : List Char
  pageHint : Option Nat
  deriving DecidableEq

/-- Lines 100–103 of `pdf-parser.ts`, with exact rational arithmetic in place
of IEEE doubles:
`Math.min(Math.ceil((chunkIndex+1) * (numPages / Math.max(chunks.length+1, 1))), numPages)`. -/
def pageHintFormula (chunkIndex numPages emitted : Nat) : Nat :=
  min (Int.toNat ⌈((chunkIndex : ℚ) + 1) *
        ((numPages : ℚ) / ((max (emitted + 1) 1 : Nat) : ℚ))⌉) numPages

/-- The `for (const paragraph of paragraphs)` loop of `splitIntoChunks`
(lines 87–119), including the final-chunk push: `cur` is `currentChunk`,
`idx` is `chunkIndex`, `acc` is the `chunks` array so far. -/
def chunkLoop (numPages chunkSize : Nat) :
    List (List Char) → List Char → Nat → List Chunk → List Chunk
  | [], cur, idx, acc =>
      if cur = [] then acc
      else acc ++ [⟨idx, trimChars cur, some numPages⟩]
  | p :: rest, cur, idx, acc =>
      if trimChars p = [] then chunkLoop numPages chunkSize rest cur idx acc
      else if cur.length + (trimChars p).length + 2 > chunkSize ∧ cur ≠ [] then
        chunkLoop numPages chunkSize rest (trimChars p) (idx + 1)
          (acc ++ [⟨idx, trimChars cur,
                    some (pageHintFormula idx numPages acc.length)⟩])
      else
        chunkLoop numPages chunkSize rest
          (if cur = [] then trimChars p
           else cur ++ '\n' :: '\n' :: trimChars p) idx acc

/-- `splitIntoChunks(text, numPages, chunkSize)` (lines 63–131). -/
def splitIntoChunks (text : List Char) (numPages chunkSize : Nat) :
    List Chunk :=
  let cleanText := normalizeText text
  if cleanText = [] then
    [⟨0, "[No text content extracted]".data, some 1⟩]
  else
    let chunks := chunkLoop numPages chunkSize (splitParas cleanText) [] 0 []
    if chunks = [] then [⟨0, cleanText.take chunkSize, some 1⟩]
    else chunks

/-- `parts.join('\n\n')`: JavaScript `Array.prototype.join` with a two-LF
separator (also used to model joining per-page extraction results). -/
def joinSep (sep : List Char) : List (List Char) → List Char
  | [] => []
  | [x] => x
  | x :: y :: rest => x ++ sep ++ joinSep sep (y :: rest)

/-- Failure taxonomy of `parsePDFFromBuffer`: the three `throw` sites. -/
inductive ParseError where
  | EmptyInput
  | InvalidFormat
  | ExtractionFailed (cause : String)
  deriving DecidableEq

/-- Result of the external extraction capability (`unpdf`'s `extractText`):
`text` may be a single string or an array of per-page strings, plus
`totalPages`. -/
structure ExtractResult where
  text : List Char ⊕ List (List Char)
  totalPages : Nat

/-- Line 41: `typeof text === 'string' ? text : text.join('\n\n')`. -/
def fullTextOf (r : ExtractResult) : List Char :=
  match r.text with
  | .inl s => s
  | .inr parts => joinSep ['\n', '\n'] parts

/-- Line 42: `totalPages || 1` (a falsy page count defaults to 1). -/
def pagesOf (r : ExtractResult) : Nat :=
  if r.totalPages = 0 then 1 else r.totalPages

/-- Return value of `parsePDFFromBuffer`: `{ text, numPages, chunks }`. -/
structure ParsedPDF where
  text : List Char
  numPages : Nat
  chunks : List Chunk
  deriving DecidableEq

/-- The ASCII bytes of `'%PDF'`, compared against the start of the buffer. -/
def pdfMagic : List Nat := [37, 80, 68, 70]

/-- Module constant `CHUNK_SIZE = 4000` (line 14). -/
def CHUNK_SIZE : Nat := 4000

/-- The post-validation half of `parsePDFFromBuffer` (lines 37–60): run the
extraction capability's result through chunking, or wrap its failure. -/
def extractAndChunk (r : Except String ExtractResult) :
    Except ParseError ParsedPDF :=
  match r with
  | .error e => .error (.ExtractionFailed e)
  | .ok x =>
      .ok ⟨fullTextOf x, pagesOf x,
           splitIntoChunks (fullTextOf x) (pagesOf x) CHUNK_SIZE⟩

/-- `parsePDFFromBuffer(buffer)` (lines 21–61), with the extraction library
abstracted as the parameter `extract`.  The magic check models
`buffer.slice(0, 5).toString().startsWith('%PDF')`. -/
def parsePDFFromBuffer (extract : List Nat → Except String ExtractResult)
    (buffer : List Nat) : Except ParseError ParsedPDF :=
  if buffer = [] then .error .EmptyInput
  else if ¬ pdfMagic <+: buffer.take 5 then .error .InvalidFormat
  else extractAndChunk (extract buffer)

/-! ## Whitespace and trimming lemmas -/

/-- A list is trimmed when neither end is JS whitespace. -/
def Trimmed (l : List Char) : Prop :=
  (∀ c, l.head? = some c → isJsWs c = false) ∧
  (∀ c, l.getLast? = some c → isJsWs c = false)

theorem trimmed_nil : Trimmed [] := by
  constructor <;> intro c h <;> simp at h

theorem head_dropWhile {p : Char → Bool} :
    ∀ (l : List Char) (c : Char), (l.dropWhile p).head? = some c → p c = false := by
  intro l
  induction l with
  | nil => intro c h; simp [List.dropWhile] at h
  | cons a rest ih =>
      intro c h
      rw [List.dropWhile_cons] at h
      by_cases hp : p a
      · rw [if_pos hp] at h; exact ih c h
      · rw [if_neg hp] at h
        simp at h
        rw [← h]
        simpa using hp

theorem dropTrailingWs_initial (l : List Char) : dropTrailingWs l <+: l := by
  induction l with
  | nil => simp [dropTrailingWs]
  | cons a rest ih =>
      rw [dropTrailingWs]
      by_cases h : (dropTrailingWs rest).isEmpty && isJsWs a
      · rw [if_pos h]; exact List.nil_prefix
      · rw [if_neg h]; exact List.cons_prefix_cons.2 ⟨rfl, ih⟩

theorem prefix_head? {x y : List Char} {c : Char} (h : y <+: x)
    (hc : y.head? = some c) : x.head? = some c := by
  obtain ⟨t, rfl⟩ := h
  cases y with
  | nil => simp at hc
  | cons b y' => simp at hc ⊢; exact hc

theorem getLast?_dropTrailingWs :
    ∀ (l : List Char) (c : Char), (dropTrailingWs l).getLast? = some c →
      isJsWs c = false := by
  intro l
  induction l with
  | nil => intro c h; simp [dropTrailingWs] at h
  | cons a rest ih =>
      intro c h
      rw [dropTrailingWs] at h
      by_cases hcond : (dropTrailingWs rest).isEmpty && isJsWs a
      · rw [if_pos hcond] at h; simp at h
      · rw [if_neg hcond] at h
        rcases hr : dropTrailingWs rest with _ | ⟨b, r'⟩
        · rw [hr] at h
          simp at h
          rw [← h]
          rw [hr] at hcond
          simpa using hcond
        · rw [hr] at h
          rw [List.getLast?_cons_cons] at h
          exact ih c (hr ▸ h)

theorem trimmed_trimChars (l : List Char) : Trimmed (trimChars l) := by
  constructor
  · intro c h
    exact head_dropWhile l c
      (prefix_head? (dropTrailingWs_initial (l.dropWhile isJsWs)) h)
  · intro c h
    exact getLast?_dropTrailingWs (l.dropWhile isJsWs) c h

theorem dropWhile_eq_self_of_head {p : Char → Bool} {l : List Char}
    (h : ∀ c, l.head? = some c → p c = false) : l.dropWhile p = l := by
  cases l with
  | nil => rfl
  | cons a rest =>
      rw [List.dropWhile_cons, if_neg]
      simp [h a rfl]

theorem dropTrailingWs_eq_self :
    ∀ {l : List Char}, (∀ c, l.getLast? = some c → isJsWs c = false) →
      dropTrailingWs l = l := by
  intro l
  induction l with
  | nil => intro _; rfl
  | cons a rest ih =>
      intro h
      rcases rest with _ | ⟨b, r'⟩
      · have ha : isJsWs a = false := h a (by simp)
        simp [dropTrailingWs, ha]
      · have hrest : dropTrailingWs (b :: r') = b :: r' := by
          apply ih
          intro c hc
          exact h c (by rw [List.getLast?_cons_cons]; exact hc)
        rw [dropTrailingWs, hrest]
        simp

theorem trimChars_eq_self {l : List Char} (h : Trimmed l) : trimChars l = l := by
  unfold trimChars
  rw [dropWhile_eq_self_of_head h.1, dropTrailingWs_eq_self h.2]

theorem trimChars_idem (l : List Char) : trimChars (trimChars l) = trimChars l :=
  trimChars_eq_self (trimmed_trimChars l)

theorem trimmed_append {a b : List Char} (m : List Char)
    (ha : Trimmed a) (hna : a ≠ []) (hb : Trimmed b) (hnb : b ≠ []) :
    Trimmed (a ++ m ++ b) := by
  constructor
  · intro c h
    apply ha.1 c
    rcases a with _ | ⟨x, a'⟩
    · exact absurd rfl hna
    · simpa using h
  · intro c h
    apply hb.2 c
    rwa [List.getLast?_append_of_ne_nil _ hnb] at h

theorem mem_dropWhile {p : Char → Bool} {c : Char} {l : List Char}
    (hm : c ∈ l) (hp : p c = false) : c ∈ l.dropWhile p := by
  rw [← List.takeWhile_append_dropWhile (p := p) (l := l)] at hm
  rcases List.mem_append.1 hm with h | h
  · exact absurd (List.mem_takeWhile_imp h) (by simp [hp])
  · exact h

theorem dropTrailingWs_ne_nil :
    ∀ {l : List Char} {c : Char}, c ∈ l → isJsWs c = false →
      dropTrailingWs l ≠ [] := by
  intro l
  induction l with
  | nil => intro c h; simp at h
  | cons a rest ih =>
      intro c hm hw
      rw [dropTrailingWs]
      by_cases hcond : (dropTrailingWs rest).isEmpty && isJsWs a
      · exfalso
        rcases List.mem_cons.1 hm with rfl | hmem
        · simp [hw] at hcond
        · have hne := ih hmem hw
          rw [Bool.and_eq_true] at hcond
          exact hne (List.isEmpty_iff.1 hcond.1)
      · rw [if_neg hcond]; simp

theorem trimChars_ne_nil {l : List Char} {c : Char}
    (hm : c ∈ l) (hw : isJsWs c = false) : trimChars l ≠ [] :=
  dropTrailingWs_ne_nil (mem_dropWhile hm hw) hw

/-! ## Replicate lists are trimmed (non-whitespace character) -/

theorem getLast?_replicate (c : Char) :
    ∀ n, (List.replicate n c).getLast? = if n = 0 then none else some c := by
  intro n
  induction n with
  | zero => rfl
  | succ m ih =>
      rw [List.replicate_succ]
      cases m with
      | zero => rfl
      | succ k =>
          rw [List.replicate_succ, List.getLast?_cons_cons,
              ← List.replicate_succ, ih]
          simp

theorem trimmed_replicate {c : Char} (hw : isJsWs c = false) (n : Nat) :
    Trimmed (List.replicate n c) := by
  constructor
  · intro d hd
    cases n with
    | zero => simp at hd
    | succ m =>
        rw [List.replicate_succ] at hd
        simp at hd; rwa [← hd]
  · intro d hd
    rw [getLast?_replicate] at hd
    cases n with
    | zero => simp at hd
    | succ m => simp at hd; rwa [← hd]

/-! ## The page-hint formula at a closing chunk -/

/-- When the number of already-emitted chunks equals the closing chunk's
index, the interpolation formula collapses to exactly `numPages`. -/
theorem pageHintFormula_self (k n : Nat) : pageHintFormula k n k = n := by
  unfold pageHintFormula
  have h1 : max (k + 1) 1 = k + 1 :=
    Nat.max_eq_left (Nat.succ_le_succ (Nat.zero_le k))
  rw [h1]
  have hne : ((k : ℚ) + 1) ≠ 0 := by positivity
  have h2 : ((k : ℚ) + 1) * ((n : ℚ) / ((k + 1 : Nat) : ℚ)) = (n : ℚ) := by
    push_cast
    rw [mul_comm, div_mul_cancel₀ _ hne]
  rw [h2, Int.ceil_natCast]
  simp

/-! ## chunkLoop: unfolding equations and invariants -/

theorem chunkLoop_nil (n s : Nat) (cur : List Char) (idx : Nat)
    (acc : List Chunk) :
    chunkLoop n s [] cur idx acc =
      if cur = [] then acc
      else acc ++ [⟨idx, trimChars cur, some n⟩] := rfl

theorem chunkLoop_cons (n s : Nat) (p : List Char) (rest : List (List Char))
    (cur : List Char) (idx : Nat) (acc : List Chunk) :
    chunkLoop n s (p :: rest) cur idx acc =
      if trimChars p = [] then chunkLoop n s rest cur idx acc
      else if cur.length + (trimChars p).length + 2 > s ∧ cur ≠ [] then
        chunkLoop n s rest (trimChars p) (idx + 1)
          (acc ++ [⟨idx, trimChars cur,
                    some (pageHintFormula idx n acc.length)⟩])
      else
        chunkLoop n s rest
          (if cur = [] then trimChars p
           else cur ++ '\n' :: '\n' :: trimChars p) idx acc := rfl

/-- The loop never returns an empty array once the buffer, the accumulator,
or a not-all-whitespace paragraph is in play. -/
theorem chunkLoop_ne (n s : Nat) :
    ∀ (paras : List (List Char)) (cur : List Char) (idx : Nat)
      (acc : List Chunk),
      (cur ≠ [] ∨ acc ≠ [] ∨ ∃ p ∈ paras, trimChars p ≠ []) →
      chunkLoop n s paras cur idx acc ≠ [] := by
  intro paras
  induction paras with
  | nil =>
      intro cur idx acc h
      rw [chunkLoop_nil]
      by_cases hc : cur = []
      · rw [if_pos hc]
        rcases h with h | h | ⟨p, hp, _⟩
        · exact absurd hc h
        · exact h
        · simp at hp
      · rw [if_neg hc]; simp
  | cons p rest ih =>
      intro cur idx acc h
      rw [chunkLoop_cons]
      by_cases h1 : trimChars p = []
      · rw [if_pos h1]
        apply ih
        rcases h with h | h | ⟨q, hq, hqt⟩
        · exact Or.inl h
        · exact Or.inr (Or.inl h)
        · rcases List.mem_cons.1 hq with rfl | hqr
          · exact absurd h1 hqt
          · exact Or.inr (Or.inr ⟨q, hqr, hqt⟩)
      · rw [if_neg h1]
        by_cases h2 : cur.length + (trimChars p).length + 2 > s ∧ cur ≠ []
        · rw [if_pos h2]
          apply ih
          right; left; simp
        · rw [if_neg h2]
          apply ih
          left
          by_cases hc : cur = []
          · rw [if_pos hc]; exact h1
          · rw [if_neg hc]; simp [hc]

/-- Well-formedness invariant of the loop: indices stay contiguous and every
stored text is non-empty and trimmed. -/
theorem chunkLoop_invariants (n s : Nat) :
    ∀ (paras : List (List Char)) (cur : List Char) (idx : Nat)
      (acc : List Chunk),
      Trimmed cur →
      acc.map Chunk.chunkIndex = List.range idx →
      acc.length = idx →
      (∀ ch ∈ acc, ch.text ≠ [] ∧ Trimmed ch.text) →
      (chunkLoop n s paras cur idx acc).map Chunk.chunkIndex =
          List.range (chunkLoop n s paras cur idx acc).length ∧
        (∀ ch ∈ chunkLoop n s paras cur idx acc,
          ch.text ≠ [] ∧ Trimmed ch.text) := by
  intro paras
  induction paras with
  | nil =>
      intro cur idx acc hcur hidx hlen hacc
      rw [chunkLoop_nil]
      by_cases hc : cur = []
      · rw [if_pos hc]; exact ⟨hlen ▸ hidx, hacc⟩
      · rw [if_neg hc]
        have htext : trimChars cur = cur := trimChars_eq_self hcur
        constructor
        · rw [List.map_append, hidx, List.length_append, hlen]
          simp [List.range_succ]
        · intro ch hch
          rcases List.mem_append.1 hch with h | h
          · exact hacc ch h
          · simp at h
            rw [h, htext]
            exact ⟨hc, htext ▸ trimmed_trimChars cur⟩
  | cons p rest ih =>
      intro cur idx acc hcur hidx hlen hacc
      rw [chunkLoop_cons]
      by_cases h1 : trimChars p = []
      · rw [if_pos h1]; exact ih cur idx acc hcur hidx hlen hacc
      · rw [if_neg h1]
        by_cases h2 : cur.length + (trimChars p).length + 2 > s ∧ cur ≠ []
        · rw [if_pos h2]
          have htext : trimChars cur = cur := trimChars_eq_self hcur
          apply ih
          · exact trimmed_trimChars p
          · rw [List.map_append, hidx, List.range_succ]; rfl
          · rw [List.length_append, hlen]; rfl
          · intro ch hch
            rcases List.mem_append.1 hch with h | h
            · exact hacc ch h
            · simp at h
              rw [h, htext]
              exact ⟨h2.2, htext ▸ trimmed_trimChars cur⟩
        · rw [if_neg h2]
          refine ih _ _ _ ?_ hidx hlen hacc
          by_cases hc : cur = []
          · rw [if_pos hc]; exact trimmed_trimChars p
          · rw [if_neg hc]
            have : cur ++ '\n' :: '\n' :: trimChars p =
                cur ++ ['\n', '\n'] ++ trimChars p := by simp
            rw [this]
            exact trimmed_append _ hcur hc (trimmed_trimChars p) h1

/-- Every chunk the loop emits carries page hint `numPages`, provided the
accumulator is consistent (`acc.length = idx`) when entering. -/
theorem chunkLoop_hint (n s : Nat) :
    ∀ (paras : List (List Char)) (cur : List Char) (idx : Nat)
      (acc : List Chunk),
      acc.length = idx →
      (∀ ch ∈ acc, ch.pageHint = some n) →
      ∀ ch ∈ chunkLoop n s paras cur idx acc, ch.pageHint = some n := by
  intro paras
  induction paras with
  | nil =>
      intro cur idx acc hlen hacc ch hch
      rw [chunkLoop_nil] at hch
      by_cases hc : cur = []
      · rw [if_pos hc] at hch; exact hacc ch hch
      · rw [if_neg hc] at hch
        rcases List.mem_append.1 hch with h | h
        · exact hacc ch h
        · simp at h; rw [h]
  | cons p rest ih =>
      intro cur idx acc hlen hacc ch hch
      rw [chunkLoop_cons] at hch
      by_cases h1 : trimChars p = []
      · rw [if_pos h1] at hch; exact ih cur idx acc hlen hacc ch hch
      · rw [if_neg h1] at hch
        by_cases h2 : cur.length + (trimChars p).length + 2 > s ∧ cur ≠ []
        · rw [if_pos h2] at hch
          refine ih _ _ _ (by rw [List.length_append, hlen]; rfl) ?_ ch hch
          intro ch' hch'
          rcases List.mem_append.1 hch' with h | h
          · exact hacc ch' h
          · simp at h
            rw [h]
            simp only [hlen, pageHintFormula_self]
        · rw [if_neg h2] at hch
          exact ih _ _ _ hlen hacc ch hch

/-! ## splitParas: the first paragraph of a trimmed text -/

theorem splitAux_shape :
    ∀ (l : List Char) (pending : Nat) (cur : List Char),
      ∃ s tl, splitAux pending cur l = (cur.reverse ++ s) :: tl := by
  intro l
  induction l with
  | nil =>
      intro pending cur
      by_cases h : pending ≥ 2
      · exact ⟨[], [[]], by simp [splitAux, h]⟩
      · exact ⟨List.replicate pending '\n', [], by simp [splitAux, h]⟩
  | cons c rest ih =>
      intro pending cur
      by_cases hc : c = '\n'
      · obtain ⟨s, tl, hs⟩ := ih (pending + 1) cur
        exact ⟨s, tl, by rw [splitAux, if_pos hc]; exact hs⟩
      · by_cases hp : pending ≥ 2
        · exact ⟨[], splitAux 0 [c] rest,
            by rw [splitAux, if_neg hc, if_pos hp]; simp⟩
        · obtain ⟨s, tl, hs⟩ := ih 0 (c :: (List.replicate pending '\n' ++ cur))
          refine ⟨List.replicate pending '\n' ++ [c] ++ s, tl, ?_⟩
          rw [splitAux, if_neg hc, if_neg hp, hs]
          simp [List.reverse_replicate]

/-- A non-empty trimmed text yields at least one paragraph that survives
trimming (it begins with a non-whitespace character). -/
theorem exists_good_para {l : List Char} (hT : Trimmed l) (hne : l ≠ []) :
    ∃ p ∈ splitParas l, trimChars p ≠ [] := by
  rcases l with _ | ⟨c, rest⟩
  · exact absurd rfl hne
  · have hw : isJsWs c = false := hT.1 c rfl
    have hc : ¬ c = '\n' := by
      intro h; rw [h] at hw; simp [isJsWs] at hw
    have hstep : splitParas (c :: rest) = splitAux 0 [c] rest := by
      rw [splitParas, splitAux, if_neg hc, if_neg (by omega : ¬ (0 : Nat) ≥ 2)]
      rfl
    obtain ⟨s, tl, hs⟩ := splitAux_shape rest 0 [c]
    refine ⟨c :: s, ?_, ?_⟩
    · rw [hstep, hs]; simp
    · exact trimChars_ne_nil (List.mem_cons_self c s) hw

/-! ## joinSep lemmas (reassembly) -/

theorem joinSep_cons (sep x : List Char) {L : List (List Char)}
    (h : L ≠ []) : joinSep sep (x :: L) = x ++ sep ++ joinSep sep L := by
  rcases L with _ | ⟨y, rest⟩
  · exact absurd rfl h
  · rfl

/-- Splicing a separator inside one field is the same as splitting the field
in two. -/
theorem joinSep_middle (sep : List Char) :
    ∀ (xs : List (List Char)) (a b : List Char) (ys : List (List Char)),
      joinSep sep (xs ++ (a ++ sep ++ b) :: ys) =
        joinSep sep (xs ++ a :: b :: ys) := by
  intro xs
  induction xs with
  | nil =>
      intro a b ys
      rcases ys with _ | ⟨y, rest⟩
      · simp [joinSep]
      · rw [List.nil_append, List.nil_append,
            joinSep_cons sep _ (by simp : (y :: rest : List (List Char)) ≠ []),
            joinSep_cons sep _ (by simp : (b :: y :: rest : List (List Char)) ≠ []),
            joinSep_cons sep _ (by simp : (y :: rest : List (List Char)) ≠ [])]
        simp [List.append_assoc]
  | cons x xs ih =>
      intro a b ys
      rw [List.cons_append, List.cons_append,
          joinSep_cons sep _ (by simp),
          joinSep_cons sep _ (by simp),
          ih]

/-- Reassembly invariant of the loop: joining the emitted texts with a blank
line equals joining the accumulator, the buffer, and the surviving trimmed
paragraphs. -/
theorem chunkLoop_join (n s : Nat) (sep : List Char) (hsep : sep = ['\n', '\n']) :
    ∀ (paras : List (List Char)) (cur : List Char) (idx : Nat)
      (acc : List Chunk),
      Trimmed cur →
      joinSep sep ((chunkLoop n s paras cur idx acc).map Chunk.text) =
        joinSep sep (acc.map Chunk.text ++
          (if cur = [] then [] else [cur]) ++
          (paras.map trimChars).filter (fun q => q ≠ [])) := by
  intro paras
  induction paras with
  | nil =>
      intro cur idx acc hcur
      rw [chunkLoop_nil]
      by_cases hc : cur = []
      · rw [if_pos hc, if_pos hc]; simp
      · rw [if_neg hc, if_neg hc]
        simp [trimChars_eq_self hcur]
  | cons p rest ih =>
      intro cur idx acc hcur
      rw [chunkLoop_cons]
      by_cases h1 : trimChars p = []
      · rw [if_pos h1, ih cur idx acc hcur]
        simp [h1]
      · rw [if_neg h1]
        by_cases h2 : cur.length + (trimChars p).length + 2 > s ∧ cur ≠ []
        · rw [if_pos h2, ih _ _ _ (trimmed_trimChars p)]
          rw [if_neg h1]
          simp only [List.map_append, List.map_cons, List.map_nil,
            List.filter_cons]
          rw [if_neg h2.2, trimChars_eq_self hcur]
          simp [List.append_assoc, h1]
        · rw [if_neg h2]
          by_cases hc : cur = []
          · rw [if_pos hc, ih _ _ _ (trimmed_trimChars p), if_neg h1, if_pos hc,
                List.map_cons, List.filter_cons, if_pos (by simpa using h1)]
            simp
          · rw [if_neg hc,
                ih _ _ _ (by
                  have : cur ++ '\n' :: '\n' :: trimChars p =
                      cur ++ ['\n', '\n'] ++ trimChars p := by simp
                  rw [this]
                  exact trimmed_append _ hcur hc (trimmed_trimChars p) h1),
                if_neg (by simp [hc] :
                  ¬ cur ++ '\n' :: '\n' :: trimChars p = []),
                if_neg hc, List.map_cons, List.filter_cons,
                if_pos (by simpa using h1)]
            have hshape : cur ++ '\n' :: '\n' :: trimChars p =
                cur ++ sep ++ trimChars p := by simp [hsep]
            rw [hshape]
            rw [show acc.map Chunk.text ++ [cur ++ sep ++ trimChars p] ++
                  (rest.map trimChars).filter (fun q => q ≠ []) =
                acc.map Chunk.text ++ (cur ++ sep ++ trimChars p) ::
                  (rest.map trimChars).filter (fun q => q ≠ []) by simp,
              joinSep_middle]
            simp

/-! ## Soft size bound invariant -/

/-- Any chunk the loop emits either fits in `chunkSize` or is the trim of a
single oversize paragraph drawn from `P`. -/
theorem chunkLoop_size (n s : Nat) (P : List (List Char)) :
    ∀ (paras : List (List Char)) (cur : List Char) (idx : Nat)
      (acc : List Chunk),
      (∀ p ∈ paras, p ∈ P) →
      Trimmed cur →
      (cur.length ≤ s ∨ ∃ p ∈ P, cur = trimChars p) →
      (∀ ch ∈ acc, ch.text.length ≤ s ∨
        ∃ p ∈ P, ch.text = trimChars p ∧ s < ch.text.length) →
      ∀ ch ∈ chunkLoop n s paras cur idx acc,
        ch.text.length ≤ s ∨
          ∃ p ∈ P, ch.text = trimChars p ∧ s < ch.text.length := by
  intro paras
  induction paras with
  | nil =>
      intro cur idx acc _ hT hcur hacc ch hch
      rw [chunkLoop_nil] at hch
      by_cases hc : cur = []
      · rw [if_pos hc] at hch; exact hacc ch hch
      · rw [if_neg hc] at hch
        rcases List.mem_append.1 hch with h | h
        · exact hacc ch h
        · simp at h
          rw [h]
          simp only [trimChars_eq_self hT]
          by_cases hlen : cur.length ≤ s
          · exact Or.inl hlen
          · rcases hcur with hcur | ⟨p, hp, hcp⟩
            · exact absurd hcur hlen
            · exact Or.inr ⟨p, hp, hcp, by omega⟩
  | cons p rest ih =>
      intro cur idx acc hsub hT hcur hacc ch hch
      rw [chunkLoop_cons] at hch
      by_cases h1 : trimChars p = []
      · rw [if_pos h1] at hch
        exact ih cur idx acc (fun q hq => hsub q (List.mem_cons_of_mem p hq))
          hT hcur hacc ch hch
      · rw [if_neg h1] at hch
        by_cases h2 : cur.length + (trimChars p).length + 2 > s ∧ cur ≠ []
        · rw [if_pos h2] at hch
          refine ih _ _ _ (fun q hq => hsub q (List.mem_cons_of_mem p hq))
            (trimmed_trimChars p)
            (Or.inr ⟨p, hsub p (List.mem_cons_self p rest), rfl⟩)
            ?_ ch hch
          intro ch' hch'
          rcases List.mem_append.1 hch' with h | h
          · exact hacc ch' h
          · simp at h
            rw [h]
            simp only [trimChars_eq_self hT]
            by_cases hlen : cur.length ≤ s
            · exact Or.inl hlen
            · rcases hcur with hcur | ⟨q, hq, hcq⟩
              · exact absurd hcur hlen
              · exact Or.inr ⟨q, hq, hcq, by omega⟩
        · rw [if_neg h2] at hch
          by_cases hc : cur = []
          · rw [if_pos hc] at hch
            exact ih _ _ _ (fun q hq => hsub q (List.mem_cons_of_mem p hq))
              (trimmed_trimChars p)
              (Or.inr ⟨p, hsub p (List.mem_cons_self p rest), rfl⟩)
              hacc ch hch
          · rw [if_neg hc] at hch
            have hfit : cur.length + (trimChars p).length + 2 ≤ s := by
              rcases not_and_or.1 h2 with h | h
              · omega
              · exact absurd hc h
            refine ih _ _ _ (fun q hq => hsub q (List.mem_cons_of_mem p hq))
              (by
                have heq : cur ++ '\n' :: '\n' :: trimChars p =
                    cur ++ ['\n', '\n'] ++ trimChars p := by simp
                rw [heq]
                exact trimmed_append _ hT hc (trimmed_trimChars p) h1)
              (Or.inl (by simp; omega))
              hacc ch hch

/-! ## Unfolding `splitIntoChunks` -/

theorem splitIntoChunks_eq (text : List Char) (n s : Nat) :
    splitIntoChunks text n s =
      if normalizeText text = [] then
        [⟨0, "[No text content extracted]".data, some 1⟩]
      else if chunkLoop n s (splitParas (normalizeText text)) [] 0 [] = [] then
        [⟨0, (normalizeText text).take s, some 1⟩]
      else chunkLoop n s (splitParas (normalizeText text)) [] 0 [] := rfl

theorem normalizeText_trimmed (text : List Char) :
    Trimmed (normalizeText text) := trimmed_trimChars _

/-- With non-empty normalized text the paragraph loop returns at least one
chunk, so the defensive fallback branch is dead code. -/
theorem chunks_ne (text : List Char) (n s : Nat)
    (h : normalizeText text ≠ []) :
    chunkLoop n s (splitParas (normalizeText text)) [] 0 [] ≠ [] :=
  chunkLoop_ne n s _ [] 0 []
    (Or.inr (Or.inr (exists_good_para (normalizeText_trimmed text) h)))

theorem splitIntoChunks_of_ne {text : List Char} (n s : Nat)
    (h : normalizeText text ≠ []) :
    splitIntoChunks text n s =
      chunkLoop n s (splitParas (normalizeText text)) [] 0 [] := by
  rw [splitIntoChunks_eq, if_neg h, if_neg (chunks_ne text n s h)]

/-! ## Normalization: CRLF and triple-newline scanners -/

/-- Does the text contain a CR immediately followed by LF? -/
def hasCRLF : List Char → Bool
  | a :: b :: rest => (a = '\r' && b = '\n') || hasCRLF (b :: rest)
  | _ => false

/-- Does the text contain three consecutive LF characters? -/
def hasTriple : List Char → Bool
  | a :: b :: c :: rest =>
      (a = '\n' && b = '\n' && c = '\n') || hasTriple (b :: c :: rest)
  | _ => false

theorem crlfToLf_cons_ne (a : Char) (rest : List Char)
    (h : ¬ (a = '\r' ∧ rest.head? = some '\n')) :
    crlfToLf (a :: rest) = a :: crlfToLf rest := by
  rw [crlfToLf.eq_def]
  split
  · next r heq =>
      exfalso
      rw [List.cons.injEq] at heq
      exact h ⟨heq.1, by rw [heq.2]; rfl⟩
  · next c r heq hne =>
      injection hne with h3 h4
      subst h3; subst h4; rfl
  · next heq => simp at heq

/-- A replace pass that finds no CRLF is the identity. -/
theorem crlf_eq_self : ∀ {l : List Char}, hasCRLF l = false → crlfToLf l = l := by
  intro l
  induction l with
  | nil => intro _; rfl
  | cons a rest ih =>
      intro h
      have hrest : hasCRLF rest = false := by
        rcases rest with _ | ⟨b, r⟩
        · rfl
        · have : hasCRLF (a :: b :: r) =
              ((a = '\r' && b = '\n') || hasCRLF (b :: r)) := rfl
          rw [this] at h
          exact (Bool.or_eq_false_iff.1 h).2
      have hne : ¬ (a = '\r' ∧ rest.head? = some '\n') := by
        rintro ⟨rfl, hh⟩
        rcases rest with _ | ⟨b, r⟩
        · simp at hh
        · simp at hh
          have : hasCRLF ('\r' :: b :: r) =
              (('\r' = '\r' && b = '\n') || hasCRLF (b :: r)) := rfl
          rw [this, hh] at h
          simp at h
      rw [crlfToLf_cons_ne a rest hne, ih hrest]

theorem hasTriple_cons_of {a : Char} {rest : List Char}
    (h : hasTriple rest = true) : hasTriple (a :: rest) = true := by
  rcases rest with _ | ⟨b, _ | ⟨c, r⟩⟩
  · simp [hasTriple] at h
  · simp [hasTriple] at h
  · have : hasTriple (a :: b :: c :: r) =
        ((a = '\n' && b = '\n' && c = '\n') || hasTriple (b :: c :: r)) := rfl
    rw [this, h]
    simp

theorem hasTriple_of_suffix :
    ∀ {l t : List Char}, t <:+ l → hasTriple t = true → hasTriple l = true := by
  intro l
  induction l with
  | nil =>
      intro t ht h
      rw [List.suffix_nil.1 ht] at h
      simp [hasTriple] at h
  | cons a rest ih =>
      intro t ht h
      rcases List.suffix_cons_iff.1 ht with rfl | hsuf
      · exact h
      · exact hasTriple_cons_of (ih hsuf h)

theorem hasTriple_append_left :
    ∀ {t : List Char} (m : List Char), hasTriple t = true →
      hasTriple (t ++ m) = true := by
  intro t
  induction t with
  | nil => intro m h; simp [hasTriple] at h
  | cons a rest ih =>
      intro m h
      rcases rest with _ | ⟨b, _ | ⟨c, r⟩⟩
      · simp [hasTriple] at h
      · simp [hasTriple] at h
      · have heq : hasTriple (a :: b :: c :: r) =
            ((a = '\n' && b = '\n' && c = '\n') || hasTriple (b :: c :: r)) :=
          rfl
        rw [heq] at h
        rw [Bool.or_eq_true] at h
        rcases h with hw | hr
        · have : hasTriple (a :: b :: c :: (r ++ m)) =
              ((a = '\n' && b = '\n' && c = '\n') ||
                hasTriple (b :: c :: (r ++ m))) := rfl
          show hasTriple (a :: b :: c :: (r ++ m)) = true
          rw [this, hw]
          simp
        · have := ih m hr
          exact hasTriple_cons_of this

theorem hasTriple_of_initial {l t : List Char} (hp : t <+: l)
    (h : hasTriple t = true) : hasTriple l = true := by
  obtain ⟨m, rfl⟩ := hp
  exact hasTriple_append_left m h

theorem hasTriple_cons_ne {c : Char} (hc : ¬ c = '\n') (X : List Char) :
    hasTriple (c :: X) = hasTriple X := by
  rcases X with _ | ⟨b, _ | ⟨d, r⟩⟩
  · rfl
  · rfl
  · have : hasTriple (c :: b :: d :: r) =
        ((c = '\n' && b = '\n' && d = '\n') || hasTriple (b :: d :: r)) := rfl
    rw [this]
    simp [hc]

theorem hasTriple_cons_cons_ne {a c : Char} (hc : ¬ c = '\n') (X : List Char) :
    hasTriple (a :: c :: X) = hasTriple (c :: X) := by
  rcases X with _ | ⟨d, r⟩
  · rfl
  · have : hasTriple (a :: c :: d :: r) =
        ((a = '\n' && c = '\n' && d = '\n') || hasTriple (c :: d :: r)) := rfl
    rw [this]
    simp [hc]

theorem hasTriple_cons3_ne {a b c : Char} (hc : ¬ c = '\n') (X : List Char) :
    hasTriple (a :: b :: c :: X) = hasTriple (b :: c :: X) := by
  have : hasTriple (a :: b :: c :: X) =
      ((a = '\n' && b = '\n' && c = '\n') || hasTriple (b :: c :: X)) := rfl
  rw [this]
  simp [hc]

theorem hasTriple_replicate_three (m : Nat) :
    hasTriple (List.replicate (m + 3) '\n') = true := by
  show hasTriple ('\n' :: '\n' :: '\n' :: List.replicate m '\n') = true
  have : hasTriple ('\n' :: '\n' :: '\n' :: List.replicate m '\n') =
      (('\n' = '\n' && '\n' = '\n' && '\n' = '\n') ||
        hasTriple ('\n' :: '\n' :: List.replicate m '\n')) := rfl
  rw [this]
  simp

/-- The collapsing pass leaves no run of three LFs behind. -/
theorem collapse_no_triple :
    ∀ (l : List Char) (pending : Nat),
      hasTriple (collapseAux pending l) = false := by
  intro l
  induction l with
  | nil =>
      intro pending
      rw [collapseAux]
      have h : min pending 2 = 0 ∨ min pending 2 = 1 ∨ min pending 2 = 2 := by
        omega
      rcases h with h | h | h <;> rw [h] <;> rfl
  | cons c rest ih =>
      intro pending
      by_cases hc : c = '\n'
      · rw [collapseAux, if_pos hc]
        exact ih (pending + 1)
      · rw [collapseAux, if_neg hc]
        have h : min pending 2 = 0 ∨ min pending 2 = 1 ∨ min pending 2 = 2 := by
          omega
        rcases h with h | h | h <;> rw [h]
        · rw [show List.replicate 0 '\n' ++ c :: collapseAux 0 rest =
              c :: collapseAux 0 rest from rfl,
            hasTriple_cons_ne hc]
          exact ih 0
        · rw [show List.replicate 1 '\n' ++ c :: collapseAux 0 rest =
              '\n' :: c :: collapseAux 0 rest from rfl,
            hasTriple_cons_cons_ne hc, hasTriple_cons_ne hc]
          exact ih 0
        · rw [show List.replicate 2 '\n' ++ c :: collapseAux 0 rest =
              '\n' :: '\n' :: c :: collapseAux 0 rest from rfl,
            hasTriple_cons3_ne hc, hasTriple_cons_cons_ne hc,
            hasTriple_cons_ne hc]
          exact ih 0

/-- On text without triple LFs the collapsing pass is the identity. -/
theorem collapse_eq_self :
    ∀ (l : List Char) (pending : Nat),
      hasTriple (List.replicate pending '\n' ++ l) = false →
      collapseAux pending l = List.replicate pending '\n' ++ l := by
  intro l
  induction l with
  | nil =>
      intro pending h
      have hp : pending ≤ 2 := by
        by_contra hgt
        have h3 : pending = (pending - 3) + 3 := by omega
        rw [List.append_nil] at h
        rw [h3, hasTriple_replicate_three] at h
        exact Bool.true_eq_false ▸ (by simp at h)
      rw [collapseAux, Nat.min_eq_left hp, List.append_nil]
  | cons c rest ih =>
      intro pending h
      by_cases hc : c = '\n'
      · subst hc
        rw [collapseAux, if_pos rfl]
        have hshift : List.replicate pending '\n' ++ '\n' :: rest =
            List.replicate (pending + 1) '\n' ++ rest := by
          rw [List.replicate_succ' pending '\n']
          simp
        rw [hshift] at h
        rw [ih (pending + 1) h, hshift]
      · have hp : pending ≤ 2 := by
          by_contra hgt
          have h3 : pending = (pending - 3) + 3 := by omega
          have : hasTriple (List.replicate pending '\n' ++ c :: rest) = true :=
            hasTriple_append_left _ (h3 ▸ hasTriple_replicate_three (pending - 3))
          rw [this] at h
          simp at h
        have hrest : hasTriple rest = false := by
          have hsuf : hasTriple (c :: rest) = true → hasTriple
              (List.replicate pending '\n' ++ c :: rest) = true :=
            hasTriple_of_suffix (List.suffix_append _ _)
          have hcr : hasTriple (c :: rest) = false := by
            cases hv : hasTriple (c :: rest)
            · rfl
            · rw [hsuf hv] at h; simp at h
          rw [hasTriple_cons_ne hc] at hcr
          exact hcr
        rw [collapseAux, if_neg hc, Nat.min_eq_left hp,
            ih 0 (by simpa using hrest)]
        rfl

theorem collapseNewlines_eq_self {l : List Char} (h : hasTriple l = false) :
    collapseNewlines l = l := by
  have := collapse_eq_self l 0 (by simpa using h)
  simpa [collapseNewlines] using this

theorem hasTriple_trim_mono {l : List Char}
    (ht : hasTriple (trimChars l) = true) : hasTriple l = true :=
  hasTriple_of_suffix (List.dropWhile_suffix _)
    (hasTriple_of_initial (dropTrailingWs_initial _) ht)

/-- The normalized text never contains a triple LF. -/
theorem normalizeText_no_triple (s : List Char) :
    hasTriple (normalizeText s) = false := by
  cases hv : hasTriple (normalizeText s)
  · rfl
  · exfalso
    have := hasTriple_trim_mono (l := collapseNewlines (crlfToLf s)) hv
    rw [collapseNewlines] at this
    rw [collapse_no_triple (crlfToLf s) 0] at this
    simp at this

/-! ## Symbolic evaluation over replicated paragraphs -/

theorem hasCRLF_eq_false_of_not_mem :
    ∀ {l : List Char}, '\r' ∉ l → hasCRLF l = false := by
  intro l
  induction l with
  | nil => intro _; rfl
  | cons a rest ih =>
      intro h
      rcases rest with _ | ⟨b, r⟩
      · rfl
      · have ha : ¬ a = '\r' := fun hh => h (hh ▸ List.mem_cons_self a _)
        have : hasCRLF (a :: b :: r) =
            ((a = '\r' && b = '\n') || hasCRLF (b :: r)) := rfl
        rw [this, ih (fun hm => h (List.mem_cons_of_mem a hm))]
        simp [ha]

theorem collapse_repl {c : Char} (hc : ¬ c = '\n') :
    ∀ (n : Nat) (rest : List Char),
      collapseAux 0 (List.replicate n c ++ rest) =
        List.replicate n c ++ collapseAux 0 rest := by
  intro n
  induction n with
  | zero => intro rest; simp
  | succ m ih =>
      intro rest
      rw [List.replicate_succ, List.cons_append, collapseAux, if_neg hc, ih]
      simp

theorem collapse_sep {c : Char} (hc : ¬ c = '\n') (rest : List Char) :
    collapseAux 0 ('\n' :: '\n' :: c :: rest) =
      '\n' :: '\n' :: c :: collapseAux 0 rest := by
  rw [collapseAux, if_pos rfl, collapseAux, if_pos rfl, collapseAux, if_neg hc]
  rfl


theorem rep_shift (c : Char) :
    ∀ (m : Nat) (cur : List Char),
      List.replicate m c ++ c :: cur = c :: (List.replicate m c ++ cur) := by
  intro m
  induction m with
  | zero => intro cur; rfl
  | succ k ih =>
      intro cur
      rw [List.replicate_succ, List.cons_append, ih, List.cons_append]

theorem split_consume {c : Char} (hc : ¬ c = '\n') :
    ∀ (n : Nat) (cur rest : List Char),
      splitAux 0 cur (List.replicate n c ++ rest) =
        splitAux 0 (List.replicate n c ++ cur) rest := by
  intro n
  induction n with
  | zero => intro cur rest; rfl
  | succ m ih =>
      intro cur rest
      rw [List.replicate_succ, List.cons_append, splitAux, if_neg hc,
          if_neg (by omega : ¬ (0 : Nat) ≥ 2)]
      have h0 : c :: (List.replicate 0 '\n' ++ cur) = c :: cur := rfl
      rw [h0, ih, rep_shift, List.cons_append]

theorem split_sep {c : Char} (hc : ¬ c = '\n') (cur rest : List Char) :
    splitAux 0 cur ('\n' :: '\n' :: c :: rest) =
      cur.reverse :: splitAux 0 [c] rest := by
  rw [splitAux, if_pos rfl, splitAux, if_pos rfl, splitAux, if_neg hc,
      if_pos (by omega : (2 : Nat) ≥ 2)]

theorem split_end (cur : List Char) : splitAux 0 cur [] = [cur.reverse] := by
  rw [splitAux, if_neg (by omega : ¬ (0 : Nat) ≥ 2)]
  show [cur.reverse ++ ([] : List Char)] = [cur.reverse]
  rw [List.append_nil]

/-- Three paragraphs of repeated characters with blank-line separators. -/
def threeParas (x y z : Char) (n m k : Nat) : List Char :=
  List.replicate n x ++ ('\n' :: '\n' ::
    (List.replicate m y ++ ('\n' :: '\n' :: List.replicate k z)))

theorem replicate_succ_ne_nil (c : Char) (n : Nat) :
    List.replicate (n + 1) c ≠ [] := by
  rw [List.replicate_succ]
  exact List.cons_ne_nil c _

theorem threeParas_crlf {x y z : Char}
    (hxr : ¬ x = '\r') (hyr : ¬ y = '\r') (hzr : ¬ z = '\r') (n m k : Nat) :
    crlfToLf (threeParas x y z n m k) = threeParas x y z n m k := by
  apply crlf_eq_self
  apply hasCRLF_eq_false_of_not_mem
  intro hmem
  unfold threeParas at hmem
  simp only [List.mem_append, List.mem_cons, List.mem_replicate] at hmem
  rcases hmem with h | h | h | h | h | h
  · exact hxr h.2.symm
  · exact absurd h (by decide)
  · exact absurd h (by decide)
  · exact hyr h.2.symm
  · exact absurd h (by decide)
  · rcases h with h | h
    · exact absurd h (by decide)
    · exact hzr h.2.symm

theorem threeParas_collapse {x y z : Char}
    (hx : ¬ x = '\n') (hy : ¬ y = '\n') (hz : ¬ z = '\n') (n m k : Nat) :
    collapseNewlines (threeParas x y z n (m + 1) (k + 1)) =
      threeParas x y z n (m + 1) (k + 1) := by
  unfold threeParas collapseNewlines
  rw [collapse_repl hx, List.replicate_succ y m, List.cons_append,
      collapse_sep hy, collapse_repl hy, List.replicate_succ z k,
      collapse_sep hz]
  have hk : collapseAux 0 (List.replicate k z) = List.replicate k z := by
    have h := collapse_repl hz k []
    rw [List.append_nil] at h
    rw [h, show collapseAux 0 ([] : List Char) = [] from rfl, List.append_nil]
  rw [hk]

theorem threeParas_trimmed {x y z : Char}
    (hxw : isJsWs x = false) (hzw : isJsWs z = false) (n m k : Nat) :
    Trimmed (threeParas x y z (n + 1) m (k + 1)) := by
  have hshape : threeParas x y z (n + 1) m (k + 1) =
      List.replicate (n + 1) x ++
        ('\n' :: '\n' :: (List.replicate m y ++ ['\n', '\n'])) ++
        List.replicate (k + 1) z := by
    unfold threeParas
    simp only [List.append_assoc, List.cons_append, List.nil_append]
  rw [hshape]
  exact trimmed_append _ (trimmed_replicate hxw (n + 1))
    (replicate_succ_ne_nil x n) (trimmed_replicate hzw (k + 1))
    (replicate_succ_ne_nil z k)

theorem threeParas_normalize {x y z : Char}
    (hx : ¬ x = '\n') (hy : ¬ y = '\n') (hz : ¬ z = '\n')
    (hxr : ¬ x = '\r') (hyr : ¬ y = '\r') (hzr : ¬ z = '\r')
    (hxw : isJsWs x = false) (hzw : isJsWs z = false) (n m k : Nat) :
    normalizeText (threeParas x y z (n + 1) (m + 1) (k + 1)) =
      threeParas x y z (n + 1) (m + 1) (k + 1) := by
  rw [normalizeText, threeParas_crlf hxr hyr hzr,
      threeParas_collapse hx hy hz,
      trimChars_eq_self (threeParas_trimmed hxw hzw (n) (m + 1) (k))]

theorem threeParas_ne_nil (x y z : Char) (n m k : Nat) :
    threeParas x y z (n + 1) m k ≠ [] := by
  unfold threeParas
  intro h
  rw [List.append_eq_nil] at h
  exact replicate_succ_ne_nil x n h.1

theorem threeParas_split {x y z : Char}
    (hx : ¬ x = '\n') (hy : ¬ y = '\n') (hz : ¬ z = '\n') (n m k : Nat) :
    splitParas (threeParas x y z n (m + 1) (k + 1)) =
      [List.replicate n x, List.replicate (m + 1) y,
       List.replicate (k + 1) z] := by
  unfold threeParas splitParas
  rw [split_consume hx, List.append_nil, List.replicate_succ y m,
      List.cons_append, split_sep hy, split_consume hy,
      List.replicate_succ z k, split_sep hz]
  have hzc := split_consume hz k [z] []
  rw [List.append_nil] at hzc
  rw [hzc, split_end, List.reverse_replicate,
      show List.replicate m y ++ [y] = List.replicate (m + 1) y from
        (List.replicate_succ' m y).symm,
      show List.replicate k z ++ [z] = List.replicate (k + 1) z from
        (List.replicate_succ' k z).symm,
      List.reverse_replicate, List.reverse_replicate]
  rfl

/-- The spec's concrete scenario: three 1500-character paragraphs, each
followed by a blank line. -/
def scenarioText (x y z : Char) : List Char :=
  List.replicate 1500 x ++ ['\n', '\n'] ++ List.replicate 1500 y ++
    ['\n', '\n'] ++ List.replicate 1500 z

theorem scenario_shape (x y z : Char) :
    scenarioText x y z = threeParas x y z 1500 1500 1500 := by
  unfold scenarioText threeParas
  rw [List.append_assoc, List.append_assoc, List.append_assoc]
  rfl

theorem scenario_chunkLoop {x y z : Char}
    (hxw : isJsWs x = false) (hyw : isJsWs y = false)
    (hzw : isJsWs z = false) :
    chunkLoop 10 4000
        [List.replicate 1500 x, List.replicate 1500 y, List.replicate 1500 z]
        [] 0 [] =
      [⟨0, List.replicate 1500 x ++ '\n' :: '\n' :: List.replicate 1500 y,
        some 10⟩,
       ⟨1, List.replicate 1500 z, some 10⟩] := by
  have htx : trimChars (List.replicate 1500 x) = List.replicate 1500 x :=
    trimChars_eq_self (trimmed_replicate hxw 1500)
  have hty : trimChars (List.replicate 1500 y) = List.replicate 1500 y :=
    trimChars_eq_self (trimmed_replicate hyw 1500)
  have htz : trimChars (List.replicate 1500 z) = List.replicate 1500 z :=
    trimChars_eq_self (trimmed_replicate hzw 1500)
  have hne : ∀ (c : Char), List.replicate 1500 c ≠ [] := by
    intro c h
    have hl := congrArg List.length h
    rw [List.length_replicate, List.length_nil] at hl
    exact absurd hl (by omega)
  have hmid : List.replicate 1500 x ++ '\n' :: '\n' :: List.replicate 1500 y =
      List.replicate 1500 x ++ ['\n', '\n'] ++ List.replicate 1500 y := by
    simp only [List.append_assoc, List.cons_append, List.nil_append]
  have hTmid : Trimmed
      (List.replicate 1500 x ++ '\n' :: '\n' :: List.replicate 1500 y) := by
    rw [hmid]
    exact trimmed_append _ (trimmed_replicate hxw 1500) (hne x)
      (trimmed_replicate hyw 1500) (hne y)
  have hmidlen :
      (List.replicate 1500 x ++ '\n' :: '\n' :: List.replicate 1500 y).length
        = 3002 := by
    rw [List.length_append, List.length_cons, List.length_cons,
        List.length_replicate, List.length_replicate]
  rw [chunkLoop_cons, htx, if_neg (hne x),
      if_neg (by
        rintro ⟨-, hfalse⟩
        exact hfalse rfl :
        ¬ (([] : List Char).length + (List.replicate 1500 x).length + 2 > 4000
          ∧ ([] : List Char) ≠ [])),
      if_pos rfl]
  rw [chunkLoop_cons, hty, if_neg (hne y),
      if_neg (by
        rintro ⟨hgt, -⟩
        rw [List.length_replicate, List.length_replicate] at hgt
        omega :
        ¬ ((List.replicate 1500 x).length + (List.replicate 1500 y).length + 2
            > 4000 ∧ List.replicate 1500 x ≠ [])),
      if_neg (hne x)]
  rw [chunkLoop_cons, htz, if_neg (hne z),
      if_pos (by
        constructor
        · rw [hmidlen, List.length_replicate]
          omega
        · intro h
          rw [List.append_eq_nil] at h
          exact hne x h.1 :
        ((List.replicate 1500 x ++ '\n' :: '\n' :: List.replicate 1500 y).length
            + (List.replicate 1500 z).length + 2 > 4000 ∧
          List.replicate 1500 x ++ '\n' :: '\n' :: List.replicate 1500 y ≠ []))]
  rw [chunkLoop_nil, if_neg (hne z), htz,
      trimChars_eq_self hTmid,
      show (([] : List Chunk)).length = 0 from rfl, pageHintFormula_self]
  rfl

/-! ## Claim theorems -/

/-- C6: when the normalized text is the empty string the chunker emits
exactly one chunk with index 0, text `"[No text content extracted]"` and
pageHint 1, regardless of pageCount and maxChunkSize. -/
theorem empty_text_placeholder (text : List Char) (n s : Nat)
    (h : normalizeText text = []) :
    splitIntoChunks text n s =
      [⟨0, "[No text content extracted]".data, some 1⟩] := by
  rw [splitIntoChunks_eq, if_pos h]

theorem empty_text_placeholder_witness :
    normalizeText " \n \n ".data = [] ∧
      splitIntoChunks " \n \n ".data 5 7 =
        [⟨0, "[No text content extracted]".data, some 1⟩] :=
  ⟨by decide, empty_text_placeholder " \n \n ".data 5 7 (by decide)⟩

/-- C8: the zero-length byte sequence fails with EmptyInput, whatever the
extraction capability does (so before extraction, and before the magic-header
check, is invoked). -/
theorem empty_input_rejected
    (extract : List Nat → Except String ExtractResult) :
    parsePDFFromBuffer extract [] = .error .EmptyInput := rfl

/-- C4: a non-empty byte sequence whose 5-byte prefix does not start with
`%PDF` fails with InvalidFormat before extraction is attempted; when the
magic matches, the very same bytes are handed to the extraction stage. -/
theorem magic_header_validation
    (extract : List Nat → Except String ExtractResult) (buffer : List Nat)
    (h1 : buffer ≠ []) :
    (¬ pdfMagic <+: buffer.take 5 →
        parsePDFFromBuffer extract buffer = .error .InvalidFormat) ∧
    (pdfMagic <+: buffer.take 5 →
        parsePDFFromBuffer extract buffer = extractAndChunk (extract buffer)) := by
  constructor
  · intro h2
    unfold parsePDFFromBuffer
    rw [if_neg h1, if_pos h2]
  · intro h2
    unfold parsePDFFromBuffer
    rw [if_neg h1, if_neg (not_not_intro h2)]

/-- A trivial extraction capability used only to instantiate witnesses. -/
def constExtract : List Nat → Except String ExtractResult :=
  fun _ => Except.ok ⟨Sum.inl [], 1⟩

theorem magic_header_validation_witness :
    ([104, 101, 108, 108, 111] : List Nat) ≠ [] ∧
      parsePDFFromBuffer constExtract [104, 101, 108, 108, 111] =
        .error .InvalidFormat :=
  ⟨by decide,
   (magic_header_validation constExtract [104, 101, 108, 108, 111]
      (by decide)).1 (by decide)⟩

/-- C5: on validated bytes, extraction failure yields ExtractionFailed
carrying the cause and no result; extraction success yields the full parsed
result with its complete chunk sequence; overall success holds exactly when
extraction succeeds. -/
theorem extraction_failure_strict
    (extract : List Nat → Except String ExtractResult) (buffer : List Nat)
    (h1 : buffer ≠ []) (h2 : pdfMagic <+: buffer.take 5) :
    (∀ e, extract buffer = .error e →
        parsePDFFromBuffer extract buffer = .error (.ExtractionFailed e)) ∧
    (∀ r, extract buffer = .ok r →
        parsePDFFromBuffer extract buffer =
          .ok ⟨fullTextOf r, pagesOf r,
               splitIntoChunks (fullTextOf r) (pagesOf r) CHUNK_SIZE⟩) ∧
    ((∃ out, parsePDFFromBuffer extract buffer = .ok out) ↔
      (∃ r, extract buffer = .ok r)) := by
  have hbase : parsePDFFromBuffer extract buffer =
      extractAndChunk (extract buffer) := by
    unfold parsePDFFromBuffer
    rw [if_neg h1, if_neg (not_not_intro h2)]
  refine ⟨?_, ?_, ?_, ?_⟩
  · intro e he; rw [hbase, he]; rfl
  · intro r hr; rw [hbase, hr]; rfl
  · rintro ⟨out, hout⟩
    rcases hex : extract buffer with e | r
    · rw [hbase, hex] at hout
      exact absurd hout (by simp [extractAndChunk])
    · exact ⟨r, rfl⟩
  · rintro ⟨r, hr⟩
    exact ⟨⟨fullTextOf r, pagesOf r,
            splitIntoChunks (fullTextOf r) (pagesOf r) CHUNK_SIZE⟩,
      by rw [hbase, hr]; rfl⟩

/-- An always-failing extraction capability used only for the witness. -/
def failExtract : List Nat → Except String ExtractResult :=
  fun _ => Except.error "boom"

theorem extraction_failure_strict_witness :
    ([37, 80, 68, 70, 49] : List Nat) ≠ [] ∧
      pdfMagic <+: ([37, 80, 68, 70, 49] : List Nat).take 5 ∧
      parsePDFFromBuffer failExtract [37, 80, 68, 70, 49] =
        .error (.ExtractionFailed "boom") :=
  ⟨by decide, by decide,
   (extraction_failure_strict failExtract [37, 80, 68, 70, 49]
      (by decide) (by decide)).1 "boom" rfl⟩

/-- C7: the chunk sequence is never empty, its indices are exactly
`0, 1, ..., N-1` in order, and every chunk's text is non-empty and equal to
its own trim. -/
theorem chunker_wellformed (text : List Char) (n s : Nat) :
    splitIntoChunks text n s ≠ [] ∧
    (splitIntoChunks text n s).map Chunk.chunkIndex =
      List.range (splitIntoChunks text n s).length ∧
    ∀ ch ∈ splitIntoChunks text n s,
      ch.text ≠ [] ∧ trimChars ch.text = ch.text := by
  by_cases h : normalizeText text = []
  · rw [splitIntoChunks_eq, if_pos h]
    refine ⟨by simp, by decide, ?_⟩
    intro ch hch
    simp only [List.mem_singleton] at hch
    rw [hch]
    exact ⟨by decide, by decide⟩
  · rw [splitIntoChunks_of_ne n s h]
    obtain ⟨hidx, htext⟩ :=
      chunkLoop_invariants n s (splitParas (normalizeText text)) [] 0 []
        trimmed_nil rfl rfl (fun ch hch => absurd hch (List.not_mem_nil ch))
    exact ⟨chunks_ne text n s h, hidx,
      fun ch hch => ⟨(htext ch hch).1, trimChars_eq_self (htext ch hch).2⟩⟩

/-- C10: whenever the normalized text is non-empty, every emitted chunk's
pageHint is present and equals pageCount: at each close the number of
already-emitted chunks equals the chunk's index, so the interpolation
formula degenerates to pageCount, and the final chunk gets pageCount
directly. -/
theorem page_hints_all_pageCount (text : List Char) (n s : Nat)
    (h : normalizeText text ≠ []) :
    (splitIntoChunks text n s).map Chunk.pageHint =
      List.replicate (splitIntoChunks text n s).length (some n) := by
  rw [splitIntoChunks_of_ne n s h]
  have hmem : ∀ hint ∈ (chunkLoop n s (splitParas (normalizeText text))
      [] 0 []).map Chunk.pageHint, hint = some n := by
    intro hint hh
    rw [List.mem_map] at hh
    obtain ⟨ch, hch, rfl⟩ := hh
    exact chunkLoop_hint n s _ [] 0 [] rfl
      (fun ch' h' => absurd h' (List.not_mem_nil ch')) ch hch
  have hrep := List.eq_replicate_of_mem hmem
  rw [List.length_map] at hrep
  exact hrep

theorem page_hints_all_pageCount_witness :
    normalizeText "hi".data ≠ [] ∧
      (splitIntoChunks "hi".data 3 10).map Chunk.pageHint =
        List.replicate (splitIntoChunks "hi".data 3 10).length (some 3) :=
  ⟨by decide, page_hints_all_pageCount "hi".data 3 10 (by decide)⟩

/-- C1 fails as stated: with empty normalized text and maxChunkSize 5 the
placeholder chunk has 27 characters yet is not a paragraph of the text. -/
theorem soft_size_bound_counterexample :
    (⟨0, "[No text content extracted]".data, some 1⟩ : Chunk) ∈
        splitIntoChunks [] 1 5 ∧
      ¬ ("[No text content extracted]".data.length ≤ 5) ∧
      ¬ (∃ p ∈ splitParas (normalizeText []),
          "[No text content extracted]".data = trimChars p) := by decide

/-- C1 (amended): every chunk's text fits in maxChunkSize unless it is the
trim of a single paragraph that itself exceeds maxChunkSize, or it is the
fixed placeholder chunk emitted for empty normalized text. -/
theorem soft_size_bound (text : List Char) (n s : Nat) :
    ∀ ch ∈ splitIntoChunks text n s,
      ch.text.length ≤ s ∨
      (∃ p ∈ splitParas (normalizeText text),
        ch.text = trimChars p ∧ s < ch.text.length) ∨
      (normalizeText text = [] ∧
        ch.text = "[No text content extracted]".data) := by
  by_cases h : normalizeText text = []
  · rw [splitIntoChunks_eq, if_pos h]
    intro ch hch
    simp only [List.mem_singleton] at hch
    rw [hch]
    exact Or.inr (Or.inr ⟨h, rfl⟩)
  · rw [splitIntoChunks_of_ne n s h]
    intro ch hch
    have := chunkLoop_size n s (splitParas (normalizeText text))
      (splitParas (normalizeText text)) [] 0 [] (fun p hp => hp) trimmed_nil
      (Or.inl (by simp))
      (fun ch' hch' => absurd hch' (List.not_mem_nil ch')) ch hch
    rcases this with h1 | ⟨p, hp, hcp, hlt⟩
    · exact Or.inl h1
    · exact Or.inr (Or.inl ⟨p, hp, hcp, hlt⟩)

theorem soft_size_bound_witness :
    ((⟨0, ['h', 'i'], some 1⟩ : Chunk) ∈ splitIntoChunks ['h', 'i'] 1 0) ∧
      ((⟨0, ['h', 'i'], some 1⟩ : Chunk).text.length ≤ 0 ∨
        (∃ p ∈ splitParas (normalizeText ['h', 'i']),
          (⟨0, ['h', 'i'], some 1⟩ : Chunk).text = trimChars p ∧
            0 < (⟨0, ['h', 'i'], some 1⟩ : Chunk).text.length) ∨
        (normalizeText ['h', 'i'] = [] ∧
          (⟨0, ['h', 'i'], some 1⟩ : Chunk).text =
            "[No text content extracted]".data)) :=
  ⟨by decide, soft_size_bound ['h', 'i'] 1 0 _ (by decide)⟩

/-- C2 fails as stated: interior whitespace at a paragraph edge is trimmed
away by the chunker, so for `"a \n\nb"` joining the chunk texts gives
`"a\n\nb"`, not the normalized text with (no) empty paragraphs dropped. -/
theorem reassembly_counterexample :
    joinSep ['\n', '\n']
        ((splitIntoChunks "a \n\nb".data 1 4000).map Chunk.text) ≠
      joinSep ['\n', '\n']
        ((splitParas (normalizeText "a \n\nb".data)).filter
          (fun p => trimChars p ≠ [])) := by decide

/-- C2 (amended): for non-empty normalized text, joining all chunk texts in
order with one blank line equals the normalized text with every paragraph
replaced by its trim and empty-after-trim paragraphs dropped. -/
theorem reassembly (text : List Char) (n s : Nat)
    (h : normalizeText text ≠ []) :
    joinSep ['\n', '\n'] ((splitIntoChunks text n s).map Chunk.text) =
      joinSep ['\n', '\n']
        (((splitParas (normalizeText text)).map trimChars).filter
          (fun q => q ≠ [])) := by
  rw [splitIntoChunks_of_ne n s h,
      chunkLoop_join n s ['\n', '\n'] rfl (splitParas (normalizeText text))
        [] 0 [] trimmed_nil]
  rw [List.map_nil, if_pos rfl, List.nil_append, List.nil_append]

theorem reassembly_witness :
    normalizeText "a \n\nb".data ≠ [] ∧
      joinSep ['\n', '\n']
          ((splitIntoChunks "a \n\nb".data 1 4000).map Chunk.text) =
        joinSep ['\n', '\n']
          (((splitParas (normalizeText "a \n\nb".data)).map trimChars).filter
            (fun q => q ≠ [])) :=
  ⟨by decide, reassembly "a \n\nb".data 1 4000 (by decide)⟩

/-- C3 fails as stated: the single-pass CRLF replacement can manufacture a
fresh CRLF pair (`"a\r\r\nb"` normalizes to `"a\r\nb"`, which normalizes
again to `"a\nb"`), so normalization is not idempotent. -/
theorem normalize_idem_counterexample :
    normalizeText (normalizeText "a\r\r\nb".data) ≠
      normalizeText "a\r\r\nb".data := by decide

/-- C3 (amended): normalization is idempotent on every input whose
normalized form contains no CRLF pair (the blank-line collapapse and the
trim are always idempotent; only a residual CRLF can break a second pass). -/
theorem normalize_idem (s : List Char)
    (h : hasCRLF (normalizeText s) = false) :
    normalizeText (normalizeText s) = normalizeText s := by
  conv_lhs => rw [normalizeText]
  rw [crlf_eq_self h, collapseNewlines_eq_self (normalizeText_no_triple s)]
  exact trimChars_idem _

theorem normalize_idem_witness :
    hasCRLF (normalizeText "a\r\nb".data) = false ∧
      normalizeText (normalizeText "a\r\nb".data) =
        normalizeText "a\r\nb".data :=
  ⟨by decide, normalize_idem "a\r\nb".data (by decide)⟩

/-- C9: three 1500-character paragraphs with maxChunkSize 4000 and pageCount
10 pack into exactly two chunks: chunk 0 holds paragraphs 1 and 2 joined by
one blank line (3002 characters), chunk 1 holds paragraph 3 alone. -/
theorem concrete_scenario {x y z : Char}
    (hxw : isJsWs x = false) (hyw : isJsWs y = false) (hzw : isJsWs z = false)
    (hxr : ¬ x = '\r') (hyr : ¬ y = '\r') (hzr : ¬ z = '\r') :
    splitIntoChunks (scenarioText x y z) 10 4000 =
      [⟨0, List.replicate 1500 x ++ '\n' :: '\n' :: List.replicate 1500 y,
        some 10⟩,
       ⟨1, List.replicate 1500 z, some 10⟩] ∧
    (List.replicate 1500 x ++ '\n' :: '\n' :: List.replicate 1500 y).length
      = 3002 := by
  have hx : ¬ x = '\n' := fun hh => by
    rw [hh] at hxw; exact absurd hxw (by decide)
  have hy : ¬ y = '\n' := fun hh => by
    rw [hh] at hyw; exact absurd hyw (by decide)
  have hz : ¬ z = '\n' := fun hh => by
    rw [hh] at hzw; exact absurd hzw (by decide)
  have hnorm : normalizeText (scenarioText x y z) = scenarioText x y z := by
    rw [scenario_shape]
    have hn := threeParas_normalize hx hy hz hxr hyr hzr hxw hzw 1499 1499 1499
    norm_num at hn
    exact hn
  have hne2 : normalizeText (scenarioText x y z) ≠ [] := by
    rw [hnorm, scenario_shape]
    have hn := threeParas_ne_nil x y z 1499 1500 1500
    norm_num at hn
    exact hn
  constructor
  · rw [splitIntoChunks_of_ne 10 4000 hne2, hnorm, scenario_shape]
    have hsplit := threeParas_split hx hy hz 1500 1499 1499
    norm_num at hsplit
    rw [hsplit, scenario_chunkLoop hxw hyw hzw]
  · rw [List.length_append, List.length_cons, List.length_cons,
        List.length_replicate, List.length_replicate]

theorem concrete_scenario_witness :
    (isJsWs 'a' = false ∧ isJsWs 'b' = false ∧ isJsWs 'c' = false ∧
      ¬ 'a' = '\r' ∧ ¬ 'b' = '\r' ∧ ¬ 'c' = '\r') ∧
      (splitIntoChunks (scenarioText 'a' 'b' 'c') 10 4000 =
        [⟨0, List.replicate 1500 'a' ++ '\n' :: '\n' ::
              List.replicate 1500 'b', some 10⟩,
         ⟨1, List.replicate 1500 'c', some 10⟩] ∧
      (List.replicate 1500 'a' ++ '\n' :: '\n' ::
          List.replicate 1500 'b').length = 3002) :=
  ⟨by decide,
   concrete_scenario (by decide) (by decide) (by decide)
     (by decide) (by decide) (by decide)⟩

end SBA
